import Mathlib

/-
Verification of the two scripts in scripts/: project-structure.py (gitignore
style matcher plus tree renderer) and create-ai-transfer-doc.py (TypeScript
concatenation).  Python strings are modelled as lists of characters (PStr).
The host is modelled as POSIX: os.sep is the forward slash, and the process
current directory is taken to be the filesystem root, so os.path.abspath
prepends a single slash.  Fallible filesystem state is passed explicitly:
a missing file or directory is the value none, and reading a file yields a
ReadRes that is either the content or the failure reason.
-/

abbrev PStr := List Char

def pstr (s : String) : PStr := s.data

/-- Model of os.sep on the modelled POSIX host. -/
def osSep : Char := '/'

/-- Model of the Python str.split method with a one-character separator:
splitting the empty string gives one empty field, and every separator
occurrence opens a new field. -/
def splitOnChar (c : Char) : PStr → List PStr
  | [] => [[]]
  | x :: xs =>
    if x = c then [] :: splitOnChar c xs
    else
      match splitOnChar c xs with
      | [] => [[x]]
      | ys :: rest => (x :: ys) :: rest

/-- Model of the Python str.join method with a one-character separator. -/
def joinSep (c : Char) : List PStr → PStr
  | [] => []
  | [p] => p
  | p :: ps => p ++ c :: joinSep c ps

/-- Model of os.path.basename: everything after the final separator. -/
def basename (p : PStr) : PStr := (splitOnChar osSep p).getLastD []

/-- Characters stripped by the Python str.strip method with no argument. -/
def isPySpace (c : Char) : Bool :=
  c == ' ' || c == '\t' || c == '\n' || c == '\r' || c == '\x0b' || c == '\x0c'

/-- Model of the Python str.strip method with no argument. -/
def pstrip (s : PStr) : PStr :=
  ((s.dropWhile isPySpace).reverse.dropWhile isPySpace).reverse

/-- Model of os.path.normpath restricted to absolute paths, acting on the
component list: empty components and single dots are dropped, and a double
dot removes the preceding component (at the root it is a no-op). -/
def normComps (comps : List PStr) : List PStr :=
  comps.foldl
    (fun acc comp =>
      if comp = [] ∨ comp = pstr "." then acc
      else if comp = pstr ".." then acc.dropLast
      else acc ++ [comp])
    []

/-- Component list of os.path.abspath of a path, with the process current
directory modelled as the filesystem root: a relative path is prefixed with
a slash and then normalised. -/
def absComps (p : PStr) : List PStr :=
  normComps (splitOnChar osSep (if (pstr "/").isPrefixOf p then p else '/' :: p))

def commonPrefixLen : List PStr → List PStr → Nat
  | x :: xs, y :: ys => if x = y then commonPrefixLen xs ys + 1 else 0
  | _, _ => 0

/-- Model of os.path.relpath on the modelled host: both arguments are taken
to absolute component lists, the common prefix is dropped, one double-dot
component is emitted per remaining component of the start, and an empty
result is rendered as a single dot. -/
def relpath (path start : PStr) : PStr :=
  let startList := absComps start
  let pathList := absComps path
  let i := commonPrefixLen startList pathList
  let relList := List.replicate (startList.length - i) (pstr "..") ++ pathList.drop i
  if relList = [] then pstr "." else joinSep osSep relList

/-- Model of os.path.join with two arguments on the modelled POSIX host. -/
def pjoin (a b : PStr) : PStr :=
  if (pstr "/").isPrefixOf b then b
  else if a = [] ∨ a.getLastD ' ' = '/' then a ++ b
  else a ++ '/' :: b

/-- One left-to-right scan of the Python str.replace method: on a match the
replacement is emitted and the remaining matched characters are consumed
through the skip counter, so occurrences are replaced non-overlapping from
the left.  Only called with a nonempty needle. -/
def replaceScan (old rep : PStr) : PStr → Nat → PStr
  | [], _ => []
  | _ :: cs, skip + 1 => replaceScan old rep cs skip
  | c :: cs, 0 =>
    if old.isPrefixOf (c :: cs) then rep ++ replaceScan old rep cs (old.length - 1)
    else c :: replaceScan old rep cs 0

/-- Model of the Python str.replace method.  An empty needle inserts the
replacement before every character and at the end, as in Python. -/
def replaceStr (old rep s : PStr) : PStr :=
  match old with
  | [] => rep ++ s.flatMap (fun c => c :: rep)
  | _ :: _ => replaceScan old rep s 0

/-
Ignore pattern matcher from scripts/project-structure.py.

The source builds a regular expression string from each rule by re.escape
followed by replacing the escaped star with dot-star and the escaped
question mark with a dot, anchored with a caret and a dollar.  Because
re.escape maps each character of the rule to itself or to a backslash pair,
that translation is exactly one regex atom per rule character; it is
modelled as a token list.  The token semantics follow Python re: a dot
token matches any character except the newline, dot-star any run of such
characters, and with re.match the trailing dollar also accepts the position
just before one final newline.
-/

inductive Tok where
  | lit (c : Char)
  | star
  | qmark
deriving DecidableEq

/-- Translation of a rule string into regex tokens: the star becomes
dot-star, the question mark becomes a dot, every other character is a
literal (re.escape makes it literal in the source). -/
def patternToks (p : PStr) : List Tok :=
  p.map fun c => if c = '*' then Tok.star else if c = '?' then Tok.qmark else Tok.lit c

/-- Suffixes of s reachable by consuming non-newline characters, in order of
how many characters were consumed; these are the positions dot-star can
leave the match at. -/
def starTails : PStr → List PStr
  | [] => [[]]
  | c :: cs => (c :: cs) :: (if c = '\n' then [] else starTails cs)

/-- Whether the token list matches the whole string, with Python re
semantics for the dot (it does not match a newline). -/
def accept : List Tok → PStr → Bool
  | [], s => s.isEmpty
  | Tok.lit c :: ts, s =>
    match s with
    | [] => false
    | x :: xs => x == c && accept ts xs
  | Tok.qmark :: ts, s =>
    match s with
    | [] => false
    | x :: xs => x != '\n' && accept ts xs
  | Tok.star :: ts, s => (starTails s).any fun t => accept ts t

/-- Model of re.match with the fully anchored pattern of the source: the
dollar anchor also matches just before one trailing newline. -/
def reMatch (ts : List Tok) (s : PStr) : Bool :=
  accept ts s || (s.getLastD ' ' == '\n' && accept ts s.dropLast)

/-- Token list compiled from one rule, following matches_gitignore_pattern:
a trailing separator is stripped first; a rule then starting with a
separator is root anchored and loses that separator, any other rule is
prefixed with dot-star so it can match at any depth. -/
def ruleRegex (p : PStr) : List Tok :=
  let p2 := if p.getLastD ' ' = '/' then p.dropLast else p
  if (pstr "/").isPrefixOf p2 then patternToks (p2.drop 1)
  else Tok.star :: patternToks p2

/-- One rule of the loop body of matches_gitignore_pattern: the compiled
expression is tested against the root-relative path and against the bare
basename of the original filepath. -/
def ruleMatches (filepath rel : PStr) (r : PStr × Bool) : Bool :=
  reMatch (ruleRegex r.1) rel || reMatch (ruleRegex r.1) (basename filepath)

/-- Model of matches_gitignore_pattern from scripts/project-structure.py. -/
def matches_gitignore_pattern (filepath : PStr) (patterns : List (PStr × Bool))
    (rootDir : PStr) : Bool :=
  if pstr ".git" ∈ splitOnChar osSep filepath then true
  else
    let rel := relpath filepath rootDir
    patterns.foldl (fun acc r => if ruleMatches filepath rel r then !r.2 else acc) false

/-- Effect of the last matching rule on a path: false when no rule matches,
otherwise true for a plain rule and false for a negation rule.  Used to
state the last-match-wins property of the rule loop. -/
def lastMatchEffect (filepath rel : PStr) (patterns : List (PStr × Bool)) : Bool :=
  match (patterns.filter (ruleMatches filepath rel)).getLast? with
  | none => false
  | some r => !r.2

/-- Model of parse_gitignore from scripts/project-structure.py.  The input
is the list of lines of the rules file, or none when the file does not
exist (os.path.exists is false). -/
def parse_gitignore (gitignoreLines : Option (List PStr)) : List (PStr × Bool) :=
  match gitignoreLines with
  | none => []
  | some lns =>
    lns.foldl
      (fun acc line0 =>
        let line := pstrip line0
        if line = [] ∨ (pstr "#").isPrefixOf line then acc
        else if (pstr "!").isPrefixOf line then acc ++ [(line.tail, true)]
        else acc ++ [(line, false)])
      []

/-- Definition following the words of the specification, for comparison
with parse_gitignore: per line, after stripping, a blank line or a comment
line yields nothing, a leading exclamation mark yields the rest of the line
with the negation flag, any other line yields itself without the flag. -/
def parseLineSpec (line0 : PStr) : Option (PStr × Bool) :=
  let line := pstrip line0
  if line = [] then none
  else if (pstr "#").isPrefixOf line then none
  else if (pstr "!").isPrefixOf line then some (line.tail, true)
  else some (line, false)

/-
Filesystem model shared by both scripts.  A directory content is a list of
entries in on-disk enumeration order (the order os.walk reports names in).
The mutual list type keeps every traversal structurally recursive.
-/

inductive ReadRes where
  | ok (content : PStr)
  | err (reason : PStr)
deriving DecidableEq

mutual
inductive Entry where
  | file (name : PStr) (content : ReadRes)
  | dir (name : PStr) (children : EList)
inductive EList where
  | nil
  | econs (e : Entry) (rest : EList)
end

/-- Names and read results of the plain files among the entries, in order:
the files component of one os.walk triple. -/
def filesOf : EList → List (PStr × ReadRes)
  | .nil => []
  | .econs (.file n c) rest => (n, c) :: filesOf rest
  | .econs (.dir _ _) rest => filesOf rest

/-- Names of the plain files among the entries, in order. -/
def fileNamesOf (es : EList) : List PStr := (filesOf es).map Prod.fst

/-- Directories visited by os.walk strictly below the given directory, in
top-down depth-first order, each with its files: the walk enters each child
directory in order and yields its triple before descending further. -/
def walkAux (dirpath : PStr) : EList → List (PStr × List (PStr × ReadRes))
  | .nil => []
  | .econs (Entry.file _ _) rest => walkAux dirpath rest
  | .econs (Entry.dir n cs) rest =>
      ((pjoin dirpath n, filesOf cs) :: walkAux (pjoin dirpath n) cs) ++ walkAux dirpath rest

/-- Model of os.walk without pruning, as consumed by the concatenation
script: the root triple first, then the subtree triples top-down. -/
def walkAll (p : PStr) (es : EList) : List (PStr × List (PStr × ReadRes)) :=
  (p, filesOf es) :: walkAux p es

/-- All files of the walk as a flat sequence of pairs of the directory the
walk reported them under and the file itself, in traversal order. -/
def fileSeq (p : PStr) (es : EList) : List (PStr × (PStr × ReadRes)) :=
  (walkAll p es).flatMap fun d => d.2.map fun f => (d.1, f)

/-- Separator normalisation applied to the relative path before it is
written: every occurrence of os.sep is replaced by a forward slash. -/
def normalizeSeps (s : PStr) : PStr := replaceStr [osSep] ['/'] s

/-- Lines contributed to concatenated_content by one directory entry of the
walk for one file: nothing for a file without the .ts suffix, the marker
line and the path comment plus content for a readable file, one inline
error comment for a file whose read fails. -/
def chunkOf (walkRoot srcDir : PStr) (f : PStr × ReadRes) : List PStr :=
  if (pstr ".ts").isSuffixOf f.1 then
    let filePath := pjoin walkRoot f.1
    let relativePath := relpath filePath srcDir
    let normalizedPath := normalizeSeps relativePath
    match f.2 with
    | ReadRes.ok content =>
        [pstr "// !!-- START OF FILE --!!",
         pstr "// src/" ++ normalizedPath ++ '\n' :: (content ++ pstr "\n")]
    | ReadRes.err e =>
        [pstr "// Error reading " ++ normalizedPath ++ pstr ": " ++ e ++ pstr "\n"]
  else []

/-- Model of concatenate_typescript_files from
scripts/create-ai-transfer-doc.py.  The second argument is the directory
content, or none when os.path.isdir is false. -/
def concatenate_typescript_files (directoryPath : PStr) (fs : Option EList) : PStr :=
  match fs with
  | none => pstr "Error: Directory '" ++ directoryPath ++ pstr "' not found."
  | some es =>
      joinSep '\n'
        ((walkAll directoryPath es).flatMap fun d =>
          d.2.flatMap fun f => chunkOf d.1 directoryPath f)

/-- Model of the main block of scripts/create-ai-transfer-doc.py: the
printed messages and the output file write, if any, as a pair.  A returned
string starting with the error marker is printed and nothing is written;
otherwise the result is written to the fixed output name. -/
def mainConcat (fs : Option EList) : List PStr × Option (PStr × PStr) :=
  let code := concatenate_typescript_files (pstr "src") fs
  let p0 := pstr "Concatenating TypeScript files from: src"
  if (pstr "Error:").isPrefixOf code then ([p0, code], none)
  else
    ([p0, pstr "Successfully concatenated files to 'full_project_source.ts'."],
     some (pstr "full_project_source.ts", code))

/-
Tree renderer from scripts/project-structure.py.  The output is the list of
strings passed to f.write, in order.
-/

/-- Lines written while visiting one directory of the walk: nothing when
the directory is not the root and matches the rules (the continue branch),
otherwise the indented directory line followed by one line per file that
does not match the rules.  Indentation is four spaces per separator left
after removing every occurrence of the root from the path, as in the
source. -/
def visitLines (rules : List (PStr × Bool)) (rootDir dirpath : PStr)
    (fileNames : List PStr) : List PStr :=
  if dirpath ≠ rootDir ∧ matches_gitignore_pattern dirpath rules rootDir then []
  else
    let level := (replaceStr rootDir [] dirpath).count osSep
    let indent := List.replicate (4 * level) ' '
    let subindent := List.replicate (4 * (level + 1)) ' '
    (indent ++ basename dirpath ++ pstr "/\n")
      :: fileNames.filterMap fun fn =>
          if matches_gitignore_pattern (pjoin dirpath fn) rules rootDir then none
          else some (subindent ++ fn ++ pstr "\n")

/-- Walk below one directory for the tree renderer: a child directory whose
joined path matches the rules is pruned (removed from dirnames), any other
child directory is visited and descended into, in order. -/
def walkTreeAux (rules : List (PStr × Bool)) (rootDir : PStr) (dirpath : PStr) :
    EList → List PStr
  | .nil => []
  | .econs (Entry.file _ _) rest => walkTreeAux rules rootDir dirpath rest
  | .econs (Entry.dir n cs) rest =>
      (if matches_gitignore_pattern (pjoin dirpath n) rules rootDir then []
       else
         visitLines rules rootDir (pjoin dirpath n) (fileNamesOf cs)
           ++ walkTreeAux rules rootDir (pjoin dirpath n) cs)
        ++ walkTreeAux rules rootDir dirpath rest

/-- Model of generate_project_structure_doc from
scripts/project-structure.py: the header lines, then the walk starting at
the root.  The second argument is the line list of the rules file found at
the root, or none when there is no such file. -/
def generate_project_structure_doc (rootDir : PStr) (gitignoreLines : Option (List PStr))
    (tree : EList) : List PStr :=
  let rules := parse_gitignore gitignoreLines
  (pstr "Project Structure for: " ++ rootDir ++ pstr "\n")
    :: (List.replicate 30 '=' ++ pstr "\n\n")
    :: (visitLines rules rootDir rootDir (fileNamesOf tree)
        ++ walkTreeAux rules rootDir rootDir tree)

/-
Sample inputs used by concrete witnesses and counterexamples below.
-/

/-- Tree with a plain file and one subdirectory, for the tree renderer. -/
def sampleTree : EList :=
  .econs (.file (pstr "a.txt") (.ok (pstr "A")))
    (.econs (.dir (pstr "sub") (.econs (.file (pstr "b.txt") (.ok (pstr "B"))) .nil)) .nil)

/-- Three TypeScript files of which the middle one fails to read. -/
def tsTree : EList :=
  .econs (.file (pstr "a.ts") (.ok (pstr "A")))
    (.econs (.file (pstr "bad.ts") (.err (pstr "boom")))
      (.econs (.file (pstr "c.ts") (.ok (pstr "C"))) .nil))

/-- Nested directories holding one TypeScript file. -/
def walkT1 : EList :=
  .econs (.dir (pstr "a")
    (.econs (.dir (pstr "b") (.econs (.file (pstr "f.ts") (.ok (pstr "x"))) .nil)) .nil)) .nil

/-- Different directory structure whose walk reports the same triples as
walkT1, because the second directory name contains a separator. -/
def walkT2 : EList :=
  .econs (.dir (pstr "a") .nil)
    (.econs (.dir (pstr "a/b") (.econs (.file (pstr "f.ts") (.ok (pstr "x"))) .nil)) .nil)

/-
General helper lemmas.
-/

theorem isPrefixOf_append_left (l t : List Char) : l.isPrefixOf (l ++ t) = true := by
  induction l with
  | nil => simp [List.isPrefixOf]
  | cons c cs ih => simp [List.isPrefixOf, ih]

theorem foldl_lastmatch {α : Type} (p : α → Bool) (f : α → Bool) :
    ∀ (l : List α) (b : Bool),
      l.foldl (fun acc r => if p r then f r else acc) b
        = ((l.filter p).getLast?.map f).getD b := by
  intro l
  induction l with
  | nil => intro b; rfl
  | cons x xs ih =>
    intro b
    rw [List.foldl_cons, ih]
    by_cases hx : p x = true
    · rw [List.filter_cons_of_pos hx, if_pos hx]
      cases hfl : xs.filter p with
      | nil => simp [hfl]
      | cons y ys =>
        rw [List.getLast?_cons_cons]
        cases hys : (y :: ys).getLast? with
        | none => simp at hys
        | some z => rfl
    · rw [List.filter_cons_of_neg (by simpa using hx), if_neg hx]

theorem replaceStr_one (a : Char) (rep s : PStr) :
    replaceStr [a] rep s = s.flatMap fun c => if c = a then rep else [c] := by
  induction s with
  | nil => rfl
  | cons c cs ih =>
    show replaceScan [a] rep (c :: cs) 0 = _
    have hpre : List.isPrefixOf [a] (c :: cs) = (a == c) := by
      simp [List.isPrefixOf]
    by_cases hc : c = a
    · subst hc
      rw [replaceScan, if_pos (by simp [hpre])]
      simp only [List.flatMap_cons, if_pos rfl]
      simpa using ih
    · rw [replaceScan, if_neg (by simp [hpre, Ne.symm hc])]
      simp only [List.flatMap_cons, if_neg hc]
      simpa using ih

theorem flatMap_if_singleton (a b : Char) (s : PStr) :
    (s.flatMap fun c => if c = a then [b] else [c])
      = s.map fun c => if c = a then b else c := by
  induction s with
  | nil => rfl
  | cons c cs ih =>
    by_cases hc : c = a <;> simp [hc, ih]

theorem flatMap_pair {α β γ : Type} (l : List (α × List β)) (k : α → β → List γ) :
    (l.flatMap fun d => d.2.flatMap fun f => k d.1 f)
      = (l.flatMap fun d => d.2.map fun f => (d.1, f)).flatMap fun rf => k rf.1 rf.2 := by
  induction l with
  | nil => rfl
  | cons d ds ih =>
    simp only [List.flatMap_cons, List.flatMap_append, ih]
    congr 1
    induction d.2 with
    | nil => rfl
    | cons f fs ihf => simp only [List.flatMap_cons, List.map_cons, ihf]

theorem concat_factor (p : PStr) (es : EList) :
    concatenate_typescript_files p (some es)
      = joinSep '\n' ((fileSeq p es).flatMap fun rf => chunkOf rf.1 p rf.2) := by
  simp only [concatenate_typescript_files, fileSeq]
  exact congrArg (joinSep '\n') (flatMap_pair (walkAll p es) fun a b => chunkOf a p b)

theorem splitOnChar_not_mem (c : Char) (s : PStr) (h : c ∉ s) :
    splitOnChar c s = [s] := by
  induction s with
  | nil => rfl
  | cons x xs ih =>
    have hx : x ≠ c := fun he => h (he ▸ List.mem_cons_self x xs)
    have hxs : c ∉ xs := fun hm => h (List.mem_cons_of_mem x hm)
    rw [splitOnChar, if_neg hx, ih hxs]

theorem splitOnChar_append (c : Char) (a b : PStr) (h : c ∉ a) :
    splitOnChar c (a ++ c :: b) = a :: splitOnChar c b := by
  induction a with
  | nil => simp [splitOnChar]
  | cons x xs ih =>
    have hx : x ≠ c := fun he => h (he ▸ List.mem_cons_self x xs)
    have hxs : c ∉ xs := fun hm => h (List.mem_cons_of_mem x hm)
    rw [List.cons_append, splitOnChar, if_neg hx, ih hxs]

theorem getLastD_append_cons (l1 : PStr) (c : Char) (l2 : PStr) (d : Char) :
    (l1 ++ c :: l2).getLastD d = (c :: l2).getLastD d := by
  induction l1 generalizing d with
  | nil => rfl
  | cons x xs ih =>
    rw [List.cons_append, List.getLastD_cons, ih, List.getLastD_cons, List.getLastD_cons]

theorem getLastD_ne (a : Char) (s : PStr) :
    ∀ d, a ∉ s → d ≠ a → s.getLastD d ≠ a := by
  induction s with
  | nil => intro d _ hd; exact hd
  | cons c cs ih =>
    intro d h hd
    rw [List.getLastD_cons]
    exact ih c (fun hm => h (List.mem_cons_of_mem c hm))
      (fun he => h (he ▸ List.mem_cons_self c cs))

theorem accept_lits_self (X : PStr) : accept (X.map Tok.lit) X = true := by
  induction X with
  | nil => rfl
  | cons c cs ih => simp [accept, ih]

theorem accept_lits_eq (X : PStr) :
    ∀ s, accept (X.map Tok.lit) s = true → s = X := by
  induction X with
  | nil =>
    intro s hs
    simpa [accept, List.isEmpty_iff] using hs
  | cons c cs ih =>
    intro s hs
    cases s with
    | nil => simp [accept] at hs
    | cons x xs =>
      simp only [List.map_cons, accept, Bool.and_eq_true, beq_iff_eq] at hs
      rw [hs.1, ih xs hs.2]

theorem self_mem_starTails (s : PStr) : s ∈ starTails s := by
  cases s <;> simp [starTails]

theorem starTails_suffix (s : PStr) : ∀ t, t ∈ starTails s → t <:+ s := by
  induction s with
  | nil =>
    intro t ht
    simp only [starTails, List.mem_singleton] at ht
    simp [ht]
  | cons c cs ih =>
    intro t ht
    simp only [starTails, List.mem_cons] at ht
    rcases ht with h | h
    · exact h ▸ List.suffix_refl _
    · by_cases hc : c = '\n'
      · simp [hc] at h
      · rw [if_neg hc] at h
        exact (ih t h).trans (List.suffix_cons c cs)

theorem accept_star_lits_suffix (X s : PStr)
    (h : accept (Tok.star :: X.map Tok.lit) s = true) : X <:+ s := by
  rw [accept, List.any_eq_true] at h
  obtain ⟨t, ht, hacc⟩ := h
  have := accept_lits_eq X t hacc
  exact this ▸ starTails_suffix s t ht

theorem accept_star_lits_self (X s : PStr) (h : s = X) :
    accept (Tok.star :: X.map Tok.lit) s = true := by
  rw [accept, List.any_eq_true]
  exact ⟨s, self_mem_starTails s, h ▸ accept_lits_self X⟩

theorem patternToks_lits (X : PStr) (hst : '*' ∉ X) (hq : '?' ∉ X) :
    patternToks X = X.map Tok.lit := by
  unfold patternToks
  apply List.map_congr_left
  intro c hc
  have h1 : c ≠ '*' := fun he => hst (he ▸ hc)
  have h2 : c ≠ '?' := fun he => hq (he ▸ hc)
  rw [if_neg h1, if_neg h2]

theorem slash_not_prefixOf (x : Char) (xs : PStr) (hx : x ≠ '/') :
    ((pstr "/").isPrefixOf (x :: xs)) = false := by
  show (List.isPrefixOf ['/'] (x :: xs)) = false
  simp [List.isPrefixOf, Ne.symm hx]

theorem not_suffix_append (X Y : PStr) (hX : '/' ∉ X) (hXY : ¬ X <:+ Y) :
    ¬ X <:+ (X ++ '/' :: Y) := by
  intro h
  obtain ⟨t, ht⟩ := h
  have hlen : t.length = Y.length + 1 := by
    have := congrArg List.length ht
    simp [List.length_append] at this
    omega
  have hX2 : X = List.drop (Y.length + 1) (X ++ '/' :: Y) := by
    rw [← ht, ← hlen, List.drop_left]
  rw [List.drop_append_eq_append_drop] at hX2
  rcases le_or_lt X.length Y.length with hle | hlt
  · rw [List.drop_eq_nil_of_le (by omega), List.nil_append] at hX2
    have h1 : Y.length + 1 - X.length = (Y.length - X.length) + 1 := by omega
    rw [h1, List.drop_succ_cons] at hX2
    exact hXY (by rw [hX2]; exact List.drop_suffix _ Y)
  · have h0 : Y.length + 1 - X.length = 0 := by omega
    rw [h0, List.drop_zero] at hX2
    apply hX
    rw [hX2]
    exact List.mem_append_right _ (List.mem_cons_self _ _)

theorem ruleRegex_dir (X : PStr) (hX0 : X ≠ []) (hXs : '/' ∉ X) :
    ruleRegex (X ++ pstr "/") = Tok.star :: patternToks X := by
  have h1 : X ++ pstr "/" = X ++ '/' :: [] := rfl
  have hlast : (X ++ '/' :: []).getLastD ' ' = '/' := by
    rw [getLastD_append_cons]
    rfl
  have hdrop : (X ++ '/' :: []).dropLast = X := by
    simp
  have hpre : ((pstr "/").isPrefixOf X) = false := by
    cases X with
    | nil => exact absurd rfl hX0
    | cons x xs =>
      exact slash_not_prefixOf x xs (fun he => hXs (he ▸ List.mem_cons_self x xs))
  unfold ruleRegex
  rw [h1, if_pos hlast, hdrop, if_neg (by simp [hpre])]

theorem reMatch_star_lits_self (X : PStr) :
    reMatch (Tok.star :: X.map Tok.lit) X = true := by
  unfold reMatch
  rw [accept_star_lits_self X X rfl]
  rfl

theorem reMatch_star_lits_false (X s : PStr) (hsuf : ¬ X <:+ s)
    (hlast : s.getLastD ' ' ≠ '\n') :
    reMatch (Tok.star :: X.map Tok.lit) s = false := by
  unfold reMatch
  have h1 : accept (Tok.star :: X.map Tok.lit) s = false := by
    cases hacc : accept (Tok.star :: X.map Tok.lit) s with
    | false => rfl
    | true => exact absurd (accept_star_lits_suffix X s hacc) hsuf
  rw [h1, beq_eq_false_iff_ne.mpr hlast]
  rfl

theorem absComps_single (X : PStr) (hX0 : X ≠ []) (hXs : '/' ∉ X)
    (hd : X ≠ pstr ".") (hdd : X ≠ pstr "..") :
    absComps X = [X] := by
  have hpre : ((pstr "/").isPrefixOf X) = false := by
    cases X with
    | nil => exact absurd rfl hX0
    | cons x xs =>
      exact slash_not_prefixOf x xs (fun he => hXs (he ▸ List.mem_cons_self x xs))
  unfold absComps
  rw [if_neg (by simp [hpre])]
  rw [show splitOnChar osSep ('/' :: X) = [] :: splitOnChar osSep X by
    rw [splitOnChar, if_pos (show '/' = osSep from rfl)]]
  rw [splitOnChar_not_mem osSep X hXs]
  unfold normComps
  simp only [List.foldl_cons, List.foldl_nil]
  simp [hX0, hd, hdd]

theorem absComps_pair (X Y : PStr) (hX0 : X ≠ []) (hXs : '/' ∉ X)
    (hXd : X ≠ pstr ".") (hXdd : X ≠ pstr "..")
    (hY0 : Y ≠ []) (hYs : '/' ∉ Y)
    (hYd : Y ≠ pstr ".") (hYdd : Y ≠ pstr "..") :
    absComps (X ++ '/' :: Y) = [X, Y] := by
  have hpre : ((pstr "/").isPrefixOf (X ++ '/' :: Y)) = false := by
    cases X with
    | nil => exact absurd rfl hX0
    | cons x xs =>
      exact slash_not_prefixOf x (xs ++ '/' :: Y)
        (fun he => hXs (he ▸ List.mem_cons_self x xs))
  unfold absComps
  rw [if_neg (by simp [hpre])]
  rw [show splitOnChar osSep ('/' :: (X ++ '/' :: Y)) = [] :: splitOnChar osSep (X ++ '/' :: Y) by
    rw [splitOnChar, if_pos (show '/' = osSep from rfl)]]
  have hsp : splitOnChar osSep (X ++ '/' :: Y) = X :: splitOnChar osSep Y :=
    splitOnChar_append osSep X Y hXs
  rw [hsp, splitOnChar_not_mem osSep Y hYs]
  unfold normComps
  simp only [List.foldl_cons, List.foldl_nil]
  simp [hX0, hXd, hXdd, hY0, hYd, hYdd]

theorem relpath_dot_single (X : PStr) (h : absComps X = [X]) :
    relpath X (pstr ".") = X := by
  unfold relpath
  rw [h, show absComps (pstr ".") = [] by decide]
  simp [commonPrefixLen, joinSep]

theorem relpath_dot_pair (X Y : PStr) (h : absComps (X ++ '/' :: Y) = [X, Y]) :
    relpath (X ++ '/' :: Y) (pstr ".") = X ++ '/' :: Y := by
  unfold relpath
  rw [h, show absComps (pstr ".") = [] by decide]
  simp [commonPrefixLen, joinSep, osSep]

/-
Claim theorems.
-/

/-- C1 counterexample: the claim quantifies over every candidate path, but
on a path with a ".git" segment and an empty rule list no rule matches, so
the claim predicts false, while matches_gitignore_pattern returns true
because of its version-control early return. -/
theorem C1_counterexample_git_path :
    matches_gitignore_pattern (pstr ".git/x") [] (pstr ".") = true := by decide

/-- C1 (amended): for every rule list and every candidate path without a
".git" segment, matches_gitignore_pattern applies all rules in list order
and returns the effect of the last matching rule, true for a plain rule
and false for a negation rule, and false when no rule matches; moreover
the keep.log and other.log examples behave as the claim states. -/
theorem C1_last_match_wins :
    (∀ (filepath : PStr) (patterns : List (PStr × Bool)) (rootDir : PStr),
        pstr ".git" ∉ splitOnChar osSep filepath →
        matches_gitignore_pattern filepath patterns rootDir
          = lastMatchEffect filepath (relpath filepath rootDir) patterns)
  ∧ matches_gitignore_pattern (pstr "keep.log")
      [(pstr "*.log", false), (pstr "keep.log", true)] (pstr ".") = false
  ∧ matches_gitignore_pattern (pstr "other.log")
      [(pstr "*.log", false), (pstr "keep.log", true)] (pstr ".") = true
  ∧ matches_gitignore_pattern (pstr "keep.log")
      [(pstr "keep.log", true)] (pstr ".") = false := by
  refine ⟨?_, by decide, by decide, by decide⟩
  intro filepath patterns rootDir h
  simp only [matches_gitignore_pattern, lastMatchEffect]
  rw [if_neg h,
    foldl_lastmatch (ruleMatches filepath (relpath filepath rootDir)) (fun r => !r.2)
      patterns false]
  cases (patterns.filter (ruleMatches filepath (relpath filepath rootDir))).getLast? with
  | none => rfl
  | some r => rfl

/-- C1 witness: instance of the amended claim at a concrete input. -/
theorem C1_last_match_wins_witness :
    matches_gitignore_pattern (pstr "a/b.log") [(pstr "*.log", false)] (pstr ".")
      = lastMatchEffect (pstr "a/b.log") (relpath (pstr "a/b.log") (pstr "."))
          [(pstr "*.log", false)] :=
  C1_last_match_wins.1 (pstr "a/b.log") [(pstr "*.log", false)] (pstr ".") (by decide)

/-- C2 counterexample: with the rule set consisting of the directory
pattern "dir/", the candidate path "dir/file.txt" strictly below the
directory is NOT matched, contradicting the claim that every path of the
form X/anything is excluded. -/
theorem C2_counterexample_below_dir :
    matches_gitignore_pattern (pstr "dir/file.txt") [(pstr "dir/", false)] (pstr ".") = false := by
  decide

/-- C2 (amended): for the rule set holding exactly the directory pattern
X followed by a separator, where X is a nonempty literal name (no
separator, wildcard or newline characters, not the special names), the
candidate equal to X is excluded, while a candidate X/Y strictly below it,
with Y a literal name that does not end with X, is NOT matched by
matches_gitignore_pattern; such deeper paths are excluded from the tree
output only through directory pruning during traversal. -/
theorem C2_dir_rule_matches (X Y : PStr)
    (hX0 : X ≠ []) (hXs : '/' ∉ X) (hXst : '*' ∉ X) (hXq : '?' ∉ X)
    (hXd : X ≠ pstr ".") (hXdd : X ≠ pstr "..") (hXg : X ≠ pstr ".git")
    (hY0 : Y ≠ []) (hYs : '/' ∉ Y) (hYn : '\n' ∉ Y)
    (hYd : Y ≠ pstr ".") (hYdd : Y ≠ pstr "..") (hYg : Y ≠ pstr ".git")
    (hYX : ¬ X <:+ Y) :
    matches_gitignore_pattern X [(X ++ pstr "/", false)] (pstr ".") = true
  ∧ matches_gitignore_pattern (X ++ '/' :: Y) [(X ++ pstr "/", false)] (pstr ".") = false := by
  have htok : patternToks X = X.map Tok.lit := patternToks_lits X hXst hXq
  have hrr : ruleRegex (X ++ pstr "/") = Tok.star :: X.map Tok.lit := by
    rw [ruleRegex_dir X hX0 hXs, htok]
  constructor
  · have hsplit : splitOnChar osSep X = [X] := splitOnChar_not_mem osSep X hXs
    have hgit : pstr ".git" ∉ splitOnChar osSep X := by
      rw [hsplit]
      intro hm
      exact hXg (List.mem_singleton.mp hm).symm
    have hrel : relpath X (pstr ".") = X :=
      relpath_dot_single X (absComps_single X hX0 hXs hXd hXdd)
    have hrm : ruleMatches X (relpath X (pstr ".")) (X ++ pstr "/", false) = true := by
      unfold ruleMatches
      rw [hrr, hrel, reMatch_star_lits_self X]
      rfl
    simp only [matches_gitignore_pattern]
    rw [if_neg hgit]
    simp [hrm]
  · have h1 : splitOnChar osSep (X ++ '/' :: Y) = X :: splitOnChar osSep Y :=
      splitOnChar_append osSep X Y hXs
    have hsp : splitOnChar osSep (X ++ '/' :: Y) = [X, Y] := by
      rw [h1, splitOnChar_not_mem osSep Y hYs]
    have hgit : pstr ".git" ∉ splitOnChar osSep (X ++ '/' :: Y) := by
      rw [hsp]
      intro hm
      rcases List.mem_cons.mp hm with h | h
      · exact hXg h.symm
      · exact hYg (List.mem_singleton.mp h).symm
    have hrel : relpath (X ++ '/' :: Y) (pstr ".") = X ++ '/' :: Y :=
      relpath_dot_pair X Y (absComps_pair X Y hX0 hXs hXd hXdd hY0 hYs hYd hYdd)
    have hbase : basename (X ++ '/' :: Y) = Y := by
      unfold basename
      rw [hsp, List.getLastD_cons, List.getLastD_cons]
      rfl
    have hlast1 : (X ++ '/' :: Y).getLastD ' ' ≠ '\n' := by
      rw [getLastD_append_cons, List.getLastD_cons]
      exact getLastD_ne '\n' Y '/' hYn (by decide)
    have hlast2 : Y.getLastD ' ' ≠ '\n' := getLastD_ne '\n' Y ' ' hYn (by decide)
    have hsuf : ¬ X <:+ (X ++ '/' :: Y) := not_suffix_append X Y hXs hYX
    have hrm : ruleMatches (X ++ '/' :: Y) (relpath (X ++ '/' :: Y) (pstr "."))
        (X ++ pstr "/", false) = false := by
      unfold ruleMatches
      rw [hrr, hrel, hbase,
        reMatch_star_lits_false X (X ++ '/' :: Y) hsuf hlast1,
        reMatch_star_lits_false X Y hYX hlast2]
      rfl
    simp only [matches_gitignore_pattern]
    rw [if_neg hgit]
    simp [hrm]

/-- C2 witness: instance of the amended claim at a concrete input. -/
theorem C2_dir_rule_matches_witness :
    matches_gitignore_pattern (pstr "build") [(pstr "build" ++ pstr "/", false)] (pstr ".") = true
  ∧ matches_gitignore_pattern (pstr "build" ++ '/' :: pstr "output.js")
      [(pstr "build" ++ pstr "/", false)] (pstr ".") = false :=
  C2_dir_rule_matches (pstr "build") (pstr "output.js")
    (by decide) (by decide) (by decide) (by decide) (by decide) (by decide) (by decide)
    (by decide) (by decide) (by decide) (by decide) (by decide) (by decide) (by decide)

/-- C3: the tree renderer writes the line of the root directory even when
the root itself matches an exclusion rule, because its guard requires the
visited directory to differ from the root.  At the failing input below the
root matches the rule set of the file holding the single rule ".", yet the
output still holds the root line "./", followed by the lines of the
children that do not match.  This contradicts the claim and the inline
code comment saying the root line is skipped in that case. -/
theorem C3_root_line_still_written :
    matches_gitignore_pattern (pstr ".") (parse_gitignore (some [pstr "."])) (pstr ".") = true
  ∧ generate_project_structure_doc (pstr ".") (some [pstr "."]) sampleTree
      = [pstr "Project Structure for: .\n",
         List.replicate 30 '=' ++ pstr "\n\n",
         pstr "./\n",
         pstr "    a.txt\n",
         pstr "    sub/\n",
         pstr "        b.txt\n"] :=
  ⟨by decide, by decide⟩

/-- C4: for every rule list, including lists with negation rules matching
".git", and every candidate path, if any path segment of the candidate
equals ".git" then matches_gitignore_pattern returns true before any rule
evaluation. -/
theorem C4_git_always_excluded (filepath : PStr) (patterns : List (PStr × Bool))
    (rootDir : PStr) (h : pstr ".git" ∈ splitOnChar osSep filepath) :
    matches_gitignore_pattern filepath patterns rootDir = true := by
  unfold matches_gitignore_pattern
  rw [if_pos h]

/-- C4 witness: a path with a ".git" segment is excluded even when the only
rule is a negation rule matching ".git". -/
theorem C4_git_always_excluded_witness :
    matches_gitignore_pattern (pstr "a/.git/b") [(pstr ".git", true)] (pstr ".") = true :=
  C4_git_always_excluded (pstr "a/.git/b") [(pstr ".git", true)] (pstr ".") (by decide)

/-- C5: when the source directory is missing, concatenate_typescript_files
returns the descriptive string starting with the error marker before any
file processing, and the main block prints that message and writes no
output file. -/
theorem C5_missing_directory :
    (∀ p : PStr, concatenate_typescript_files p none
        = pstr "Error: Directory '" ++ p ++ pstr "' not found.")
  ∧ (∀ p : PStr, (pstr "Error:").isPrefixOf (concatenate_typescript_files p none) = true)
  ∧ (mainConcat none).1
      = [pstr "Concatenating TypeScript files from: src",
         concatenate_typescript_files (pstr "src") none]
  ∧ (mainConcat none).2 = none := by
  refine ⟨fun p => rfl, fun p => ?_, by decide, by decide⟩
  show (pstr "Error:").isPrefixOf (pstr "Error: Directory '" ++ p ++ pstr "' not found.") = true
  have h : pstr "Error: Directory '" = pstr "Error:" ++ pstr " Directory '" := rfl
  rw [h, List.append_assoc]
  exact isPrefixOf_append_left _ _

/-- C6: a read failure on one file with the .ts suffix contributes exactly
one inline error comment holding the normalised relative path and the
failure reason, in place, and every file after it in the traversal is still
processed: the output is the join of the chunks of the files before it,
the error comment, and the chunks of the files after it. -/
theorem C6_read_failure_isolated (p : PStr) (es : EList)
    (pre post : List (PStr × (PStr × ReadRes))) (r n e : PStr)
    (hseq : fileSeq p es = pre ++ (r, (n, ReadRes.err e)) :: post)
    (hts : (pstr ".ts").isSuffixOf n = true) :
    concatenate_typescript_files p (some es)
      = joinSep '\n'
          (pre.flatMap (fun rf => chunkOf rf.1 p rf.2)
            ++ (pstr "// Error reading " ++ normalizeSeps (relpath (pjoin r n) p)
                  ++ pstr ": " ++ e ++ pstr "\n")
              :: post.flatMap fun rf => chunkOf rf.1 p rf.2) := by
  have hchunk : chunkOf r p (n, ReadRes.err e)
      = [pstr "// Error reading " ++ normalizeSeps (relpath (pjoin r n) p)
          ++ pstr ": " ++ e ++ pstr "\n"] := by
    simp [chunkOf, hts]
  rw [concat_factor p es, hseq]
  simp only [List.flatMap_append, List.flatMap_cons]
  simp [hchunk]

/-- C6 witness: instance at a concrete tree whose middle file fails. -/
theorem C6_read_failure_isolated_witness :
    concatenate_typescript_files (pstr "src") (some tsTree)
      = joinSep '\n'
          ([((pstr "src"), ((pstr "a.ts"), ReadRes.ok (pstr "A")))].flatMap
              (fun rf => chunkOf rf.1 (pstr "src") rf.2)
            ++ (pstr "// Error reading "
                  ++ normalizeSeps (relpath (pjoin (pstr "src") (pstr "bad.ts")) (pstr "src"))
                  ++ pstr ": " ++ pstr "boom" ++ pstr "\n")
              :: [((pstr "src"), ((pstr "c.ts"), ReadRes.ok (pstr "C")))].flatMap
                  fun rf => chunkOf rf.1 (pstr "src") rf.2) :=
  C6_read_failure_isolated (pstr "src") tsTree
    [((pstr "src"), ((pstr "a.ts"), ReadRes.ok (pstr "A")))]
    [((pstr "src"), ((pstr "c.ts"), ReadRes.ok (pstr "C")))]
    (pstr "src") (pstr "bad.ts") (pstr "boom") (by decide) (by decide)

/-- C7: parse_gitignore returns, in file order, exactly one entry per line
that is non-blank after stripping and does not start with the comment
mark: a stripped line starting with the exclamation mark is stored without
that mark and with the negation flag, any other kept line is stored as the
stripped line without the flag; a missing rules file yields the empty
list. -/
theorem C7_parse_rules :
    parse_gitignore none = []
  ∧ ∀ lns : List PStr, parse_gitignore (some lns) = lns.filterMap parseLineSpec := by
  refine ⟨rfl, ?_⟩
  have key : ∀ (lns : List PStr) (acc : List (PStr × Bool)),
      lns.foldl
        (fun acc line0 =>
          let line := pstrip line0
          if line = [] ∨ (pstr "#").isPrefixOf line then acc
          else if (pstr "!").isPrefixOf line then acc ++ [(line.tail, true)]
          else acc ++ [(line, false)])
        acc
      = acc ++ lns.filterMap parseLineSpec := by
    intro lns
    induction lns with
    | nil => intro acc; simp
    | cons l ls ih =>
      intro acc
      rw [List.foldl_cons, List.filterMap_cons, ih]
      by_cases h1 : pstrip l = []
      · simp [parseLineSpec, h1]
      · by_cases h2 : (pstr "#").isPrefixOf (pstrip l) = true
        · simp [parseLineSpec, h1, h2]
        · by_cases h3 : (pstr "!").isPrefixOf (pstrip l) = true
          · simp [parseLineSpec, h1, h2, h3]
          · simp [parseLineSpec, h1, h2, h3]
  intro lns
  simpa [parse_gitignore] using key lns []

/-- C8: the relative path written in the comment line of every included
file is the separator normalisation of the path relative to the source
directory, and that normalisation maps every occurrence of the host
separator to a forward slash and keeps every other character. -/
theorem C8_forward_slash_paths :
    (∀ s : PStr, normalizeSeps s = s.map fun c => if c = osSep then '/' else c)
  ∧ (∀ (wr p n c : PStr), chunkOf wr p (n, ReadRes.ok c)
      = if (pstr ".ts").isSuffixOf n then
          [pstr "// !!-- START OF FILE --!!",
           pstr "// src/" ++ normalizeSeps (relpath (pjoin wr n) p)
             ++ '\n' :: (c ++ pstr "\n")]
        else []) := by
  constructor
  · intro s
    rw [show normalizeSeps s = replaceStr [osSep] ['/'] s from rfl, replaceStr_one]
    exact flatMap_if_singleton osSep '/' s
  · intro wr p n c
    rfl

/-- C9: the concatenation output is a function of the walk triples alone:
two directory states reported identically by the traversal, with the same
file contents, produce identical output strings, so a second run over an
unchanged directory is byte-identical. -/
theorem C9_deterministic_output (p : PStr) (d1 d2 : EList)
    (h : walkAll p d1 = walkAll p d2) :
    concatenate_typescript_files p (some d1) = concatenate_typescript_files p (some d2) := by
  simp only [concatenate_typescript_files]
  rw [h]

/-- C9 witness: two structurally different trees with equal walk triples
give the same output. -/
theorem C9_deterministic_output_witness :
    concatenate_typescript_files (pstr "src") (some walkT1)
      = concatenate_typescript_files (pstr "src") (some walkT2) :=
  C9_deterministic_output (pstr "src") walkT1 walkT2 (by decide)

/-- C10: a root-anchored rule, one starting with a separator and not
ending with one, still excludes a file at any depth whose basename matches
the translated pattern, because the compiled expression is also tested
against the bare basename. -/
theorem C10_anchored_rule_matches_by_basename (P filepath rootDir : PStr)
    (hgit : pstr ".git" ∉ splitOnChar osSep filepath)
    (hne : ('/' :: P).getLastD ' ' ≠ '/')
    (hbase : reMatch (patternToks P) (basename filepath) = true) :
    matches_gitignore_pattern filepath [('/' :: P, false)] rootDir = true := by
  have hr : ruleRegex ('/' :: P) = patternToks P := by
    unfold ruleRegex
    rw [if_neg hne, if_pos (show ((pstr "/").isPrefixOf ('/' :: P)) = true by
      simp [List.isPrefixOf])]
    simp
  simp only [matches_gitignore_pattern]
  rw [if_neg hgit]
  simp [ruleMatches, hr, hbase]

/-- C10 witness: the root-anchored rule "/foo.txt" excludes the deeper
path "a/b/foo.txt" through the basename test. -/
theorem C10_anchored_rule_matches_by_basename_witness :
    matches_gitignore_pattern (pstr "a/b/foo.txt")
      [('/' :: pstr "foo.txt", false)] (pstr ".") = true :=
  C10_anchored_rule_matches_by_basename (pstr "foo.txt") (pstr "a/b/foo.txt") (pstr ".")
    (by decide) (by decide) (by decide)
